/-
Verification of the designate-operator predictable-IP allocation core.

The Go source is shallowly embedded as follows:
* IPv4/IPv6 addresses (`netip.Addr`) are modelled as `Nat`; `netip.Addr.Next`
  is the successor (address-arithmetic overflow at the top of the address
  space is out of scope per the spec), and since `netip.Addr.String` is
  injective on valid addresses, an address and its string representation are
  identified with the same `Nat`.
* A ConfigMap's `Data` (one pool's HolderKey → Address table) is an
  association list `Table := List (String × Nat)`; Go's map iteration order
  is modelled by the list order.
* The external object store (API server holding the ConfigMaps) is an
  association list `Store := List (String × Table)` from ConfigMap name to its
  data; `none` on lookup models a NotFound error from `client.Get`.
  `controllerutil.CreateOrPatch` on a ConfigMap whose `Data` was set by the
  caller is modelled as an upsert of that data into the store.
-/
import Mathlib

set_option autoImplicit false

namespace Designate

/-- One pool's persisted HolderKey → Address table (a ConfigMap's `Data`);
an address (`netip.Addr`) is modelled as `Nat`, successor = `+ 1`. -/
abbrev Table := List (String × Nat)

/-- The external store: ConfigMap name → table. `none` lookup = NotFound. -/
abbrev Store := List (String × Table)

/-- `NADIpam` (network-attachment IPAM parameters): the pool's address range,
`RangeStart` inclusive, `RangeEnd` an exclusive sentinel. -/
structure NADIpam where
  rangeStart : Nat
  rangeEnd : Nat
deriving DecidableEq

/-- First value bound to key `k` in a table (Go map indexing `t[k]`). -/
def tblGet (t : Table) (k : String) : Option Nat :=
  match t with
  | [] => none
  | (k', v) :: rest => if k' = k then some v else tblGet rest k

/-- The data stored under ConfigMap name `n`, if the ConfigMap exists. -/
def storeLookup (s : Store) (n : String) : Option Table :=
  match s with
  | [] => none
  | (n', t) :: rest => if n' = n then some t else storeLookup rest n

/-- Upsert: write `t` as the data of ConfigMap `n` (models a successful
`Create`/`Update`/`CreateOrPatch` of the ConfigMap). -/
def storeWrite (s : Store) (n : String) (t : Table) : Store :=
  match s with
  | [] => [(n, t)]
  | (n', t') :: rest =>
      if n' = n then (n, t) :: rest else (n', t') :: storeWrite rest n t

/-- All values (addresses) of a table. -/
def tableValues (t : Table) : List Nat := t.map Prod.snd

/-- `handleConfigMap`: read the existing ConfigMap's data, or an empty table
when the ConfigMap does not exist (NotFound is not an error here). -/
def handleConfigMapData (s : Store) (n : String) : Table :=
  (storeLookup s n).getD []

/-- Modelled from the spec: the constant `BindPredIPConfigMap` (the bind
sibling pool's ConfigMap name) is defined in this repository outside src/. -/
def BindPredIPConfigMap : String := "bind-predictable-ips"

/-- Modelled from the spec: the constant `MdnsPredIPConfigMap` (the mdns
sibling pool's ConfigMap name) is defined in this repository outside src/. -/
def MdnsPredIPConfigMap : String := "mdns-predictable-ips"

/-- The sibling-pool exclusion set built in `AllocateIP`: the values of the
bind and mdns ConfigMaps; a failed `Get` of either contributes nothing. -/
def siblingAllocated (s : Store) : List Nat :=
  tableValues ((storeLookup s BindPredIPConfigMap).getD []) ++
    tableValues ((storeLookup s MdnsPredIPConfigMap).getD [])

/-- Modelled from the spec: `GetNextIP`'s successor walk (the function is in
this repository outside src/). Walks candidates from `cand` with `Next`,
skipping addresses in `excl`, returning the first unexcluded address; returns
`none` once the candidate reaches `rangeEnd` (PoolExhausted). `fuel` only
bounds the recursion; starting from `rangeStart` with
`fuel = rangeEnd - rangeStart` it never runs out before `rangeEnd` is hit. -/
def findFree (rangeEnd : Nat) (excl : List Nat) : Nat → Nat → Option Nat
  | cand, fuel =>
      if cand = rangeEnd then none
      else if cand ∈ excl then
        match fuel with
        | 0 => none
        | f + 1 => findFree rangeEnd excl (cand + 1) f
      else some cand

/-- Modelled from the spec: `GetNextIP` (in this repository outside src/)
selects the first address of the pool's range not in `allocatedIPs`, fails
when the walk reaches `rangeEnd`, and records the chosen address in the
exclusion set (so later picks in the same call are distinct). -/
def GetNextIP (params : NADIpam) (allocatedIPs : List Nat) :
    Option (Nat × List Nat) :=
  (findFree params.rangeEnd allocatedIPs params.rangeStart
      (params.rangeEnd - params.rangeStart)).map
    (fun ip => (ip, ip :: allocatedIPs))

/-- The second loop of `allocatePredictableIPs`: give each holder in `need`
a fresh address via `GetNextIP`, threading the exclusion set. -/
def assignNew (params : NADIpam) :
    List String → List Nat → Option (Table × List Nat)
  | [], allocd => some ([], allocd)
  | h :: rest, allocd =>
      match GetNextIP params allocd with
      | none => none
      | some (ip, allocd') =>
          (assignNew params rest allocd').map
            (fun p => ((h, ip) :: p.1, p.2))

/-- `IPSetManager.allocatePredictableIPs`: keep the existing bindings of the
requested holders, then allocate fresh addresses for the holders not yet in
`existingMap`; the returned table contains exactly the requested holders. -/
def allocatePredictableIPs (params : NADIpam) (ipHolders : List String)
    (existingMap : Table) (allocatedIPs : List Nat) :
    Option (Table × List Nat) :=
  let kept := ipHolders.filterMap
    (fun h => (tblGet existingMap h).map (fun v => (h, v)))
  let need := ipHolders.filter (fun h => (tblGet existingMap h).isNone)
  (assignNew params need allocatedIPs).map (fun p => (kept ++ p.1, p.2))

/-- `IPSetManager.AllocateIP`. The source converts a `netip.Prefix` to a
`NADIpam` via `GetPredictableIPAM` (outside src/); we take the derived range
as input. It reads the pool's own ConfigMap (`setName`), builds the exclusion
set from the bind and mdns sibling ConfigMaps, allocates for the single
holder key `pod_<podIndex>`, writes the resulting table back, and returns the
holder's address. The first component is the returned address (`none` = the
allocation error path, on which nothing is written). -/
def AllocateIP (s : Store) (setName : String) (params : NADIpam)
    (podIndex : Nat) : Option Nat × Store :=
  let podKey := "pod_" ++ toString podIndex
  let existingMap := handleConfigMapData s setName
  let allocatedIPs := siblingAllocated s
  match allocatePredictableIPs params [podKey] existingMap allocatedIPs with
  | none => (none, s)
  | some (updatedMap, _) =>
      (tblGet updatedMap podKey, storeWrite s setName updatedMap)

/-- Remove the first entry whose value is `ip` (the `delete` in
`ReleaseIP`'s loop). -/
def removeFirstValue : Table → Nat → Table
  | [], _ => []
  | (k, v) :: rest, ip =>
      if v = ip then rest else (k, v) :: removeFirstValue rest ip

/-- `IPSetManager.ReleaseIP`: `Get` the pool's ConfigMap (`none` = the `Get`
error, e.g. NotFound, is returned); remove the first entry whose value equals
`ip` and `Update`; if no entry matches, succeed without writing. -/
def ReleaseIP (s : Store) (setName : String) (ip : Nat) : Option Store :=
  match storeLookup s setName with
  | none => none
  | some data =>
      if data.any (fun kv => kv.2 = ip) then
        some (storeWrite s setName (removeFirstValue data ip))
      else
        some s

/-- Claim C1: the spec says every successful `AllocateIP` write strictly
extends the prior table, never removing unrelated entries. The code violates
this: with prior table `{pod_0 ↦ 10}` over range `[10, 14)`, allocating
`pod_1` succeeds but persists the table `{pod_1 ↦ 10}` — the unrelated entry
`pod_0 ↦ 10` is erased (and its address even reissued), because
`allocatePredictableIPs` rebuilds the table from only the requested holder
and `AllocateIP` writes it back wholesale. -/
theorem claim1_allocate_erases_unrelated_entry :
    AllocateIP [("pool-a", [("pod_0", 10)])] "pool-a" ⟨10, 14⟩ 1 =
      (some 10, [("pool-a", [("pod_1", 10)])]) ∧
    tblGet
      (handleConfigMapData
        (AllocateIP [("pool-a", [("pod_0", 10)])] "pool-a" ⟨10, 14⟩ 1).2
        "pool-a") "pod_0" = none := by
  constructor <;> decide

/-- Claim C2: the spec says N sequential allocations of distinct holder keys
against an initially empty pool return the first N addresses of the range in
successor order, all distinct. The code violates this at N = 2: over range
`[10, 14)` with empty pool `pool-a`, allocating `pod_0` and then `pod_1`
returns 10 both times (the successor walk excludes only the bind/mdns sibling
ConfigMaps' values, never the pool's own table, and the first write was
replaced anyway). -/
theorem claim2_sequential_allocation_reissues_address :
    (AllocateIP [] "pool-a" ⟨10, 14⟩ 0).1 = some 10 ∧
    (AllocateIP (AllocateIP [] "pool-a" ⟨10, 14⟩ 0).2 "pool-a"
        ⟨10, 14⟩ 1).1 = some 10 := by
  constructor <;> decide

theorem storeWrite_lookup_self (s : Store) (n : String) (t : Table)
    (h : storeLookup s n = some t) : storeWrite s n t = s := by
  induction s with
  | nil => simp [storeLookup] at h
  | cons hd rest ih =>
      obtain ⟨n', t'⟩ := hd
      by_cases hn : n' = n
      · subst hn
        simp [storeLookup] at h
        simp [storeWrite, h]
      · simp only [storeLookup, if_neg hn] at h
        simp [storeWrite, hn, ih h]

theorem removeFirstValue_of_split (pre suf : Table) (k : String) (ip : Nat)
    (hpre : ∀ kv ∈ pre, kv.2 ≠ ip) :
    removeFirstValue (pre ++ (k, ip) :: suf) ip = pre ++ suf := by
  induction pre with
  | nil => simp [removeFirstValue]
  | cons hd rest ih =>
      obtain ⟨k', v'⟩ := hd
      have hv : v' ≠ ip := hpre (k', v') (by simp)
      simp only [List.cons_append, removeFirstValue, if_neg hv]
      simp only [List.cons.injEq, true_and]
      exact ih (fun kv hkv => hpre kv (by simp [hkv]))

/-- Claim C3 counterexample: the claim says `ReleaseIP` returns success for
every state of the pool's record, including the record not existing at all.
The code returns the `Get` error in that case: releasing from an empty store
(the pool's ConfigMap does not exist) fails instead of succeeding. -/
theorem claim3_release_missing_record_errors :
    ReleaseIP [] "pool-a" 10 = none := by decide

/-- Claim C3 (amended): when the pool's record exists, `ReleaseIP` is total
and safe — releasing an address not present in the table is a no-op
returning success, and releasing a present address removes exactly the first
entry whose value equals the address and writes the rest of the table back
unchanged; when the record does not exist, the lookup error is returned
instead of success. -/
theorem claim3_release_total_on_existing_record (s : Store) (n : String)
    (data : Table) (ip : Nat) (hlook : storeLookup s n = some data) :
    ((∀ kv ∈ data, kv.2 ≠ ip) → ReleaseIP s n ip = some s) ∧
    (∀ pre k suf, data = pre ++ (k, ip) :: suf →
      (∀ kv ∈ pre, kv.2 ≠ ip) →
      ReleaseIP s n ip = some (storeWrite s n (pre ++ suf))) := by
  constructor
  · intro habs
    have hany : data.any (fun kv => kv.2 = ip) = false := by
      simp only [List.any_eq_false, decide_eq_true_eq]
      exact fun kv hkv => habs kv hkv
    simp [ReleaseIP, hlook, hany]
  · intro pre k suf hsplit hpre
    have hany : data.any (fun kv => kv.2 = ip) = true := by
      simp only [List.any_eq_true, decide_eq_true_eq]
      exact ⟨(k, ip), by simp [hsplit], rfl⟩
    have hrm : removeFirstValue data ip = pre ++ suf := by
      rw [hsplit]; exact removeFirstValue_of_split pre suf k ip hpre
    simp [ReleaseIP, hlook, hany, hrm]

theorem claim3_release_witness :
    ReleaseIP [("p", [("a", 1), ("b", 2)])] "p" 2 = some [("p", [("a", 1)])] ∧
    ReleaseIP [("p", [("a", 1), ("b", 2)])] "p" 5 =
      some [("p", [("a", 1), ("b", 2)])] := by
  have h2 := claim3_release_total_on_existing_record
      [("p", [("a", 1), ("b", 2)])] "p" [("a", 1), ("b", 2)] 2 (by decide)
  have h5 := claim3_release_total_on_existing_record
      [("p", [("a", 1), ("b", 2)])] "p" [("a", 1), ("b", 2)] 5 (by decide)
  refine ⟨?_, h5.1 (by decide)⟩
  have := h2.2 [("a", 1)] "b" [] (by decide) (by decide)
  rw [this]; decide

/-- Claim C6 counterexample: the claim says a repeated `AllocateIP` for a
holder key already bound performs no effective table mutation. With prior
table `{q ↦ 11, pod_0 ↦ 10}`, re-allocating `pod_0` returns 10 as claimed,
but the persisted table becomes `{pod_0 ↦ 10}` — the unrelated entry
`q ↦ 11` is dropped, an effective mutation. -/
theorem claim6_idempotent_reallocate_mutates_table :
    (AllocateIP [("p", [("q", 11), ("pod_0", 10)])] "p" ⟨10, 14⟩ 0).1 =
      some 10 ∧
    (AllocateIP [("p", [("q", 11), ("pod_0", 10)])] "p" ⟨10, 14⟩ 0).2 =
      [("p", [("pod_0", 10)])] := by
  constructor <;> decide

/-- Claim C6 (amended): for every pool state in which the holder key already
maps to address `a`, calling `AllocateIP` again returns `a` and persists the
table containing exactly the binding `pod_<idx> ↦ a` — the holder is never
moved to a different address; consequently the repeated call performs no
effective mutation exactly when the pool's record already is that single
binding (the state a single allocation produces), while unrelated entries in
any larger table are dropped by the rewrite. -/
theorem claim6_idempotent_reallocate_amended (s : Store) (n : String)
    (params : NADIpam) (idx : Nat) (a : Nat)
    (h : tblGet (handleConfigMapData s n) ("pod_" ++ toString idx) = some a) :
    (AllocateIP s n params idx).1 = some a ∧
    (AllocateIP s n params idx).2 =
      storeWrite s n [("pod_" ++ toString idx, a)] ∧
    (storeLookup s n = some [("pod_" ++ toString idx, a)] →
      (AllocateIP s n params idx).2 = s) := by
  have halloc : allocatePredictableIPs params ["pod_" ++ toString idx]
      (handleConfigMapData s n) (siblingAllocated s) =
      some ([("pod_" ++ toString idx, a)], siblingAllocated s) := by
    simp [allocatePredictableIPs, h, assignNew]
  refine ⟨?_, ?_, ?_⟩
  · simp [AllocateIP, halloc, tblGet]
  · simp [AllocateIP, halloc]
  · intro hself
    simp [AllocateIP, halloc, storeWrite_lookup_self s n _ hself]

theorem claim6_idempotent_reallocate_witness :
    (AllocateIP [("p", [("pod_0", 10)])] "p" ⟨10, 14⟩ 0).1 = some 10 ∧
    (AllocateIP [("p", [("pod_0", 10)])] "p" ⟨10, 14⟩ 0).2 =
      [("p", [("pod_0", 10)])] := by
  have h := claim6_idempotent_reallocate_amended [("p", [("pod_0", 10)])] "p"
      ⟨10, 14⟩ 0 10 (by decide)
  exact ⟨h.1, h.2.2 (by decide)⟩

theorem findFree_not_mem (e : Nat) (excl : List Nat) :
    ∀ fuel cand c, findFree e excl cand fuel = some c → c ∉ excl := by
  intro fuel
  induction fuel with
  | zero =>
      intro cand c h
      rw [findFree] at h
      by_cases h1 : cand = e
      · simp [h1] at h
      · by_cases h2 : cand ∈ excl
        · simp [h1, h2] at h
        · simp only [if_neg h1, if_neg h2, Option.some.injEq] at h
          subst h; exact h2
  | succ f ih =>
      intro cand c h
      rw [findFree] at h
      by_cases h1 : cand = e
      · simp [h1] at h
      · by_cases h2 : cand ∈ excl
        · simp only [if_neg h1, if_pos h2] at h
          exact ih (cand + 1) c h
        · simp only [if_neg h1, if_neg h2, Option.some.injEq] at h
          subst h; exact h2

/-- Claim C4: cross-pool exclusion. Every address present as a value of the
bind or mdns sibling ConfigMap at allocation time is placed in the exclusion
set, and the successor walk only ever selects an unexcluded address, so
`AllocateIP` for a holder key not already in the pool's own table never
returns such an address. -/
theorem claim4_cross_pool_exclusion (s : Store) (n : String)
    (params : NADIpam) (idx : Nat) (x : Nat)
    (hx : x ∈ siblingAllocated s)
    (hnot : tblGet (handleConfigMapData s n) ("pod_" ++ toString idx) = none) :
    ∀ ip, (AllocateIP s n params idx).1 = some ip → ip ≠ x := by
  intro ip hip
  rcases hG : GetNextIP params (siblingAllocated s) with _ | ⟨ip0, a'⟩
  · simp [AllocateIP, allocatePredictableIPs, hnot, assignNew, hG] at hip
  · have hip0 : ip = ip0 := by
      simp [AllocateIP, allocatePredictableIPs, hnot, assignNew, hG,
        tblGet] at hip
      exact hip.symm
    have hfind : findFree params.rangeEnd (siblingAllocated s)
        params.rangeStart (params.rangeEnd - params.rangeStart) = some ip0 := by
      simp only [GetNextIP, Option.map_eq_some'] at hG
      obtain ⟨c, hc, hceq⟩ := hG
      obtain ⟨hceq1, -⟩ := Prod.mk.injEq .. ▸ hceq
      rw [hc, hceq1]
    have hnm := findFree_not_mem params.rangeEnd (siblingAllocated s)
      (params.rangeEnd - params.rangeStart) params.rangeStart ip0 hfind
    subst hip0
    exact fun hxy => hnm (hxy ▸ hx)

theorem claim4_cross_pool_exclusion_witness :
    (10 : Nat) ∈ siblingAllocated [("bind-predictable-ips", [("x", 10)])] ∧
    (AllocateIP [("bind-predictable-ips", [("x", 10)])] "pool-a"
        ⟨10, 14⟩ 0).1 = some 11 ∧
    ∀ ip, (AllocateIP [("bind-predictable-ips", [("x", 10)])] "pool-a"
        ⟨10, 14⟩ 0).1 = some ip → ip ≠ 10 := by
  refine ⟨by decide, by decide, ?_⟩
  exact claim4_cross_pool_exclusion [("bind-predictable-ips", [("x", 10)])]
    "pool-a" ⟨10, 14⟩ 0 10 (by decide) (by decide)

/-- Accumulator loop for a run of decimal digits: `none` as soon as a
non-digit appears. -/
def digitsValAux : Nat → List Char → Option Nat
  | acc, [] => some acc
  | acc, c :: cs =>
      if c.isDigit then digitsValAux (acc * 10 + (c.toNat - 48)) cs else none

/-- Value of a nonempty run of decimal digits (`none` on empty input or on a
non-digit). -/
def digitsVal : List Char → Option Nat
  | [] => none
  | cs => digitsValAux 0 cs

/-- The digits-and-range part of Go's `strconv.Atoi` on a 64-bit platform:
parse the digit run after the (already consumed) sign; a value outside the
64-bit int range is an `ErrRange` error. -/
def atoiMag (cs : List Char) (neg : Bool) : Option Int :=
  (digitsVal cs).bind (fun n =>
    if neg then (if n ≤ 2 ^ 63 then some (-(n : Int)) else none)
    else (if n ≤ 2 ^ 63 - 1 then some (n : Int) else none))

/-- Go's `strconv.Atoi`: optional leading `+` or `-` sign, then a nonempty
run of decimal digits; errors on empty input, a stray sign, a non-digit, or
64-bit overflow. Strings are modelled as `List Char`. -/
def atoi (cs : List Char) : Option Int :=
  match cs with
  | [] => none
  | c :: rest =>
      if c = '+' then atoiMag rest false
      else if c = '-' then atoiMag rest true
      else atoiMag (c :: rest) false

/-- The token after the last `-` of the name (`strings.LastIndex` plus the
slice `podName[lastDashIndex+1:]`); `none` when the name contains no `-`. -/
def trailingToken : List Char → Option (List Char)
  | [] => none
  | c :: cs =>
      match trailingToken cs with
      | some tok => some tok
      | none => if c = '-' then some cs else none

/-- `ExtractPodIndexFromName`: fail when the name has no `-`; otherwise parse
the token after the last `-` with `strconv.Atoi`. -/
def ExtractPodIndexFromName (podName : List Char) : Option Int :=
  (trailingToken podName).bind atoi

/-- The claim's notion of a numeric ordinal token: a nonempty string of
decimal digits. -/
def isNumericToken (cs : List Char) : Bool :=
  !cs.isEmpty && cs.all Char.isDigit

theorem trailingToken_eq_none_iff (cs : List Char) :
    trailingToken cs = none ↔ '-' ∉ cs := by
  induction cs with
  | nil => simp [trailingToken]
  | cons c cs ih =>
      rw [trailingToken]
      rcases h : trailingToken cs with _ | tok
      · have hnd : '-' ∉ cs := ih.mp h
        by_cases hc : c = '-'
        · simp [hc]
        · simp [hc, Ne.symm hc, hnd]
      · have : '-' ∈ cs := by
          by_contra hnd
          rw [← ih] at hnd
          rw [hnd] at h
          exact Option.noConfusion h
        simp [this]

theorem trailingToken_no_dash (cs : List Char) :
    ∀ tok, trailingToken cs = some tok → '-' ∉ tok := by
  induction cs with
  | nil => intro tok h; exact Option.noConfusion h
  | cons c cs ih =>
      intro tok h
      rw [trailingToken] at h
      rcases hr : trailingToken cs with _ | tok'
      · rw [hr] at h
        by_cases hc : c = '-'
        · simp only [if_pos hc, Option.some.injEq] at h
          subst h
          exact (trailingToken_eq_none_iff cs).mp hr
        · simp [hc] at h
      · rw [hr] at h
        simp only [Option.some.injEq] at h
        subst h
        exact ih tok' hr

theorem digitsValAux_all_digits :
    ∀ cs acc n, digitsValAux acc cs = some n → cs.all Char.isDigit := by
  intro cs
  induction cs with
  | nil => intro acc n _; rfl
  | cons c cs ih =>
      intro acc n h
      rw [digitsValAux] at h
      by_cases hc : c.isDigit
      · simp only [List.all_cons, hc, Bool.true_and]
        exact ih _ n (by simpa [hc] using h)
      · simp [hc] at h

theorem digitsVal_shape (cs : List Char) (n : Nat)
    (h : digitsVal cs = some n) : cs ≠ [] ∧ cs.all Char.isDigit := by
  cases cs with
  | nil => simp [digitsVal] at h
  | cons c rest =>
      exact ⟨by simp, digitsValAux_all_digits (c :: rest) 0 n h⟩

theorem atoi_nonneg_of_no_dash (cs : List Char) (hnd : '-' ∉ cs) :
    ∀ z, atoi cs = some z → 0 ≤ z := by
  intro z h
  cases cs with
  | nil => simp [atoi] at h
  | cons c rest =>
      have hc : c ≠ '-' := fun hc => hnd (by simp [hc])
      rw [atoi] at h
      by_cases hp : c = '+'
      · simp only [if_pos hp] at h
        simp only [atoiMag, Option.bind_eq_some] at h
        obtain ⟨n, -, hn⟩ := h
        simp at hn
        omega
      · simp only [if_neg hp, if_neg hc] at h
        simp only [atoiMag, Option.bind_eq_some] at h
        obtain ⟨n, -, hn⟩ := h
        simp at hn
        omega

theorem atoi_token_shape (cs : List Char) (z : Int) (h : atoi cs = some z) :
    cs.all Char.isDigit ∨
      (∃ c rest, cs = c :: rest ∧ (c = '+' ∨ c = '-') ∧
        rest.all Char.isDigit) := by
  cases cs with
  | nil => simp [atoi] at h
  | cons c rest =>
      rw [atoi] at h
      by_cases hp : c = '+'
      · right
        simp only [if_pos hp] at h
        simp only [atoiMag, Option.bind_eq_some] at h
        obtain ⟨n, hn, -⟩ := h
        exact ⟨c, rest, rfl, Or.inl hp, (digitsVal_shape rest n hn).2⟩
      · by_cases hm : c = '-'
        · right
          simp only [if_neg hp, if_pos hm] at h
          simp only [atoiMag, Option.bind_eq_some] at h
          obtain ⟨n, hn, -⟩ := h
          exact ⟨c, rest, rfl, Or.inr hm, (digitsVal_shape rest n hn).2⟩
        · left
          simp only [if_neg hp, if_neg hm] at h
          simp only [atoiMag, Option.bind_eq_some] at h
          obtain ⟨n, hn, -⟩ := h
          exact (digitsVal_shape (c :: rest) n hn).2

theorem atoi_of_digits (cs : List Char) (n : Nat) (hne : cs ≠ [])
    (hdig : cs.all Char.isDigit) (hval : digitsVal cs = some n)
    (hrange : n ≤ 2 ^ 63 - 1) : atoi cs = some (n : Int) := by
  cases cs with
  | nil => exact absurd rfl hne
  | cons c rest =>
      have hcd : c.isDigit := by
        have := List.all_eq_true.mp hdig c (by simp)
        simpa using this
      have hp : c ≠ '+' := by
        intro hc; rw [hc] at hcd; exact Bool.noConfusion hcd
      have hm : c ≠ '-' := by
        intro hc; rw [hc] at hcd; exact Bool.noConfusion hcd
      rw [atoi]
      simp only [if_neg hp, if_neg hm, atoiMag, hval, Option.some_bind]
      simp only [Bool.false_eq_true, if_false]
      rw [if_pos hrange]

/-- Claim C7 counterexample: the claim says ordinal extraction never
succeeds on a non-numeric trailing token. Go's `strconv.Atoi` accepts a
leading `+`, so the name `pod-+5`, whose trailing token `+5` is not a string
of digits, succeeds with ordinal 5. -/
theorem claim7_extract_succeeds_on_plus_token :
    ExtractPodIndexFromName ("pod-+5".toList) = some 5 ∧
    isNumericToken ("+5".toList) = false := by
  constructor <;> decide

/-- Claim C7 (amended): ordinal extraction splits on the final `-` and
parses the trailing token with Go's integer parser. It fails for every name
with no separator; whenever it succeeds the result is non-negative and is
the parsed value of the trailing token, which must be a run of decimal
digits optionally preceded by a sign character; and every all-digit trailing
token whose value fits the 64-bit int range succeeds with that value (an
all-digit token beyond the range fails with `ErrRange`). -/
theorem claim7_extract_ordinal_amended (podName : List Char) :
    ('-' ∉ podName → ExtractPodIndexFromName podName = none) ∧
    (∀ z, ExtractPodIndexFromName podName = some z →
      0 ≤ z ∧
      ∃ tok, trailingToken podName = some tok ∧ atoi tok = some z ∧
        (tok.all Char.isDigit ∨
          ∃ rest, tok = '+' :: rest ∧ rest.all Char.isDigit)) ∧
    (∀ tok n, trailingToken podName = some tok → tok ≠ [] →
      tok.all Char.isDigit → digitsVal tok = some n → n ≤ 2 ^ 63 - 1 →
      ExtractPodIndexFromName podName = some (n : Int)) := by
  refine ⟨?_, ?_, ?_⟩
  · intro hnd
    rw [ExtractPodIndexFromName, (trailingToken_eq_none_iff podName).mpr hnd]
    rfl
  · intro z h
    rw [ExtractPodIndexFromName] at h
    rcases ht : trailingToken podName with _ | tok
    · rw [ht] at h; exact Option.noConfusion h
    · rw [ht] at h
      simp only [Option.some_bind] at h
      have hnd : '-' ∉ tok := trailingToken_no_dash podName tok ht
      refine ⟨atoi_nonneg_of_no_dash tok hnd z h, tok, rfl, h, ?_⟩
      rcases atoi_token_shape tok z h with hd | ⟨c, rest, hcs, hsign, hrest⟩
      · exact Or.inl hd
      · rcases hsign with hplus | hminus
        · exact Or.inr ⟨rest, by rw [hcs, hplus], hrest⟩
        · exact absurd (by rw [hcs, hminus]; simp) hnd
  · intro tok n ht hne hdig hval hrange
    rw [ExtractPodIndexFromName, ht, Option.some_bind]
    exact atoi_of_digits tok n hne hdig hval hrange

theorem claim7_extract_ordinal_witness :
    ExtractPodIndexFromName ("designate-backendbind9-3".toList) =
      some 3 ∧
    ExtractPodIndexFromName ("nodash".toList) = none := by
  constructor
  · exact (claim7_extract_ordinal_amended
      ("designate-backendbind9-3".toList)).2.2 ("3".toList) 3 (by decide)
      (by decide) (by decide) (by decide) (by decide)
  · exact (claim7_extract_ordinal_amended ("nodash".toList)).1 (by decide)

/-- The successor walk shared by `GetPodPredictableIP` and
`CreatePredictableMultusAnnotation`: step `Next` the given number of times
from `ip`, failing as soon as a step lands on `rangeEnd`; the current
address is returned when the steps are used up. -/
def predictableWalk (rangeEnd : Nat) : Nat → Nat → Option Nat
  | ip, 0 => some ip
  | ip, k + 1 =>
      if ip + 1 = rangeEnd then none
      else predictableWalk rangeEnd (ip + 1) k

/-- `GetPodPredictableIP`: the predictable address of pod index `podIndex`
is the `podIndex`-th successor of the range start, with the walk failing
("pod index exceeds available IP range") once a step reaches `rangeEnd`. -/
def GetPodPredictableIP (params : NADIpam) (podIndex : Nat) : Option Nat :=
  predictableWalk params.rangeEnd params.rangeStart podIndex

theorem predictableWalk_spec (e : Nat) :
    ∀ k ip,
      (predictableWalk e ip k = some (ip + k) ∨
        predictableWalk e ip k = none) ∧
      (predictableWalk e ip k = none ↔
        ∃ j, 1 ≤ j ∧ j ≤ k ∧ ip + j = e) := by
  intro k
  induction k with
  | zero =>
      intro ip
      refine ⟨Or.inl (by simp [predictableWalk]), ?_⟩
      simp only [predictableWalk]
      constructor
      · intro h; exact Option.noConfusion h
      · rintro ⟨j, h1, h2, -⟩; omega
  | succ k ih =>
      intro ip
      by_cases h1 : ip + 1 = e
      · refine ⟨Or.inr ?_, ?_⟩
        · simp [predictableWalk, h1]
        · simp only [predictableWalk, if_pos h1]
          exact ⟨fun _ => ⟨1, le_refl 1, Nat.succ_le_succ (Nat.zero_le k), h1⟩,
            fun _ => trivial⟩
      · have hstep : predictableWalk e ip (k + 1) =
            predictableWalk e (ip + 1) k := by
          simp [predictableWalk, h1]
        obtain ⟨hval, hnone⟩ := ih (ip + 1)
        refine ⟨?_, ?_⟩
        · rcases hval with hs | hn
          · exact Or.inl (by rw [hstep, hs]; congr 1; omega)
          · exact Or.inr (by rw [hstep, hn])
        · rw [hstep, hnone]
          constructor
          · rintro ⟨j, hj1, hj2, hj3⟩
            exact ⟨j + 1, by omega, by omega, by omega⟩
          · rintro ⟨j, hj1, hj2, hj3⟩
            have hj1' : j ≠ 1 := fun hj => h1 (by omega)
            exact ⟨j - 1, by omega, by omega, by omega⟩

/-- Claim C8 counterexample: the claim says the walk's result is never equal
to the range end. For the degenerate range whose start equals its exclusive
end, pod index 0 succeeds and returns exactly the range end (the loop body,
which performs the end check, runs zero times). -/
theorem claim8_degenerate_range_returns_end :
    GetPodPredictableIP ⟨5, 5⟩ 0 = some ((⟨5, 5⟩ : NADIpam).rangeEnd) := by
  decide

/-- Claim C8 (amended): for every pool range and pod index `k`, a successful
walk returns the `k`-th successor of the range start; provided the range
start differs from the exclusive end, that returned address is never the
range end (for the degenerate start-equals-end range, index 0 returns the
start, which is the end); and the walk fails exactly when one of its `k`
steps reaches the end. -/
theorem claim8_predictable_walk_amended (params : NADIpam) (k : Nat) :
    (∀ ip, GetPodPredictableIP params k = some ip →
      ip = params.rangeStart + k) ∧
    (params.rangeStart ≠ params.rangeEnd →
      ∀ ip, GetPodPredictableIP params k = some ip →
        ip ≠ params.rangeEnd) ∧
    (GetPodPredictableIP params k = none ↔
      ∃ j, 1 ≤ j ∧ j ≤ k ∧ params.rangeStart + j = params.rangeEnd) := by
  obtain ⟨hval, hnone⟩ :=
    predictableWalk_spec params.rangeEnd k params.rangeStart
  have hsome : ∀ ip, GetPodPredictableIP params k = some ip →
      ip = params.rangeStart + k := by
    intro ip h
    rcases hval with hs | hn
    · rw [GetPodPredictableIP, hs] at h
      exact (Option.some.injEq .. ▸ h).symm
    · rw [GetPodPredictableIP, hn] at h
      exact Option.noConfusion h
  refine ⟨hsome, ?_, hnone⟩
  intro hne ip h hend
  have hik := hsome ip h
  rcases Nat.eq_zero_or_pos k with hk | hk
  · exact hne (by omega)
  · have : GetPodPredictableIP params k = none :=
      hnone.mpr ⟨k, by omega, le_refl k, by omega⟩
    rw [this] at h
    exact Option.noConfusion h

theorem claim8_predictable_walk_witness :
    (∀ ip, GetPodPredictableIP ⟨10, 14⟩ 2 = some ip → ip ≠ 14) ∧
    GetPodPredictableIP ⟨10, 14⟩ 2 = some 12 := by
  exact ⟨(claim8_predictable_walk_amended ⟨10, 14⟩ 2).2.1 (by decide),
    by decide⟩

/-- One generation loop of `GeneratePredictableIPMaps`: starting at address
`ip` and key index `i`, bind up to `remaining` keys `<pre><index>` to
consecutive addresses, stopping early — without error — as soon as the walk
stands on `rangeEnd`; also returns the address after the last one issued
(where the next loop continues). -/
def genIPEntries (rangeEnd : Nat) (pre : String) :
    Nat → Nat → Nat → List (String × Nat) × Nat
  | _, 0, ip => ([], ip)
  | i, r + 1, ip =>
      if ip = rangeEnd then ([], ip)
      else
        let rest := genIPEntries rangeEnd pre (i + 1) r (ip + 1)
        ((pre ++ toString i, ip) :: rest.1, rest.2)

/-- `GeneratePredictableIPMaps`: the bind map walks from `rangeStart`; the
mdns map continues from where the bind walk stopped. -/
def GeneratePredictableIPMaps (params : NADIpam)
    (bindReplicas mdnsReplicas : Nat) :
    List (String × Nat) × List (String × Nat) :=
  let bindPart :=
    genIPEntries params.rangeEnd "bind_address_" 0 bindReplicas
      params.rangeStart
  let mdnsPart :=
    genIPEntries params.rangeEnd "mdns_address_" 0 mdnsReplicas bindPart.2
  (bindPart.1, mdnsPart.1)

/-- How many entries one generation loop issues: none when the walk already
stands on the end, at most the distance to the end when the end is ahead,
the full count when the end is not on the walk. -/
def issuedCount (start e cnt : Nat) : Nat :=
  if start = e then 0 else if start < e then min cnt (e - start) else cnt

theorem issuedCount_succ (ip e r : Nat) (h : ip ≠ e) :
    issuedCount ip e (r + 1) = issuedCount (ip + 1) e r + 1 := by
  simp only [issuedCount, Nat.min_def]
  split_ifs <;> omega

theorem issuedCount_le (s e c : Nat) : issuedCount s e c ≤ c := by
  simp only [issuedCount, Nat.min_def]
  split_ifs <;> omega

theorem issuedCount_ne (s e c i : Nat) (h : i < issuedCount s e c) :
    s + i ≠ e := by
  simp only [issuedCount, Nat.min_def] at h
  split_ifs at h <;> omega

theorem issuedCount_pos_ne (s e c : Nat) (h : 0 < issuedCount s e c) :
    s ≠ e := by
  simp only [issuedCount, Nat.min_def] at h
  split_ifs at h <;> omega

theorem issuedCount_full (s e c : Nat) (h : s + issuedCount s e c ≠ e) :
    issuedCount s e c = c := by
  simp only [issuedCount, Nat.min_def] at *
  split_ifs at * <;> omega

theorem genIPEntries_eq (e : Nat) (pre : String) :
    ∀ cnt i ip, genIPEntries e pre i cnt ip =
      ((List.range (issuedCount ip e cnt)).map
        (fun j => (pre ++ toString (i + j), ip + j)),
       ip + issuedCount ip e cnt) := by
  intro cnt
  induction cnt with
  | zero =>
      intro i ip
      simp [genIPEntries, issuedCount]
  | succ r ih =>
      intro i ip
      by_cases h1 : ip = e
      · have hz : issuedCount ip e (r + 1) = 0 := by
          simp [issuedCount, h1]
        rw [hz]
        simp [genIPEntries, h1]
      · rw [genIPEntries]
        simp only [if_neg h1]
        rw [ih (i + 1) (ip + 1), issuedCount_succ ip e r h1,
          List.range_succ_eq_map]
        simp only [List.map_cons, List.map_map, List.cons.injEq,
          Prod.mk.injEq]
        refine ⟨⟨⟨by rw [Nat.add_zero], by rw [Nat.add_zero]⟩, ?_⟩, by omega⟩
        apply List.map_congr_left
        intro j hj
        simp only [Function.comp_apply, Prod.mk.injEq]
        constructor
        · congr 2
          omega
        · omega

/-- Claim C10: over any range, the bind map binds `bind_address_i` to the
`i`-th successor of the range start for exactly the indices `i < bindReplicas`
that fit before the exclusive end; the mdns map continues where the bind walk
stopped, and whenever an mdns entry exists at all it binds `mdns_address_j`
to the `(bindReplicas + j)`-th successor; no issued address equals the range
end; all issued addresses (across both maps) are pairwise distinct; and
replicas that do not fit are silently omitted — the maps are simply shorter,
no error is reported. -/
theorem claim10_generate_ip_maps_spec (params : NADIpam) (b m : Nat) :
    (GeneratePredictableIPMaps params b m).1 =
      (List.range (issuedCount params.rangeStart params.rangeEnd b)).map
        (fun i => ("bind_address_" ++ toString i, params.rangeStart + i)) ∧
    (GeneratePredictableIPMaps params b m).2 =
      (List.range (issuedCount
          (params.rangeStart + issuedCount params.rangeStart params.rangeEnd b)
          params.rangeEnd m)).map
        (fun j => ("mdns_address_" ++ toString j,
          params.rangeStart + issuedCount params.rangeStart params.rangeEnd b
            + j)) ∧
    (∀ p ∈ (GeneratePredictableIPMaps params b m).1,
      p.2 ≠ params.rangeEnd) ∧
    (∀ p ∈ (GeneratePredictableIPMaps params b m).2,
      p.2 ≠ params.rangeEnd) ∧
    ((GeneratePredictableIPMaps params b m).1.map Prod.snd ++
      (GeneratePredictableIPMaps params b m).2.map Prod.snd).Nodup ∧
    (∀ j, j < issuedCount
        (params.rangeStart + issuedCount params.rangeStart params.rangeEnd b)
        params.rangeEnd m →
      ("mdns_address_" ++ toString j, params.rangeStart + (b + j)) ∈
        (GeneratePredictableIPMaps params b m).2) ∧
    (GeneratePredictableIPMaps params b m).1.length ≤ b ∧
    (GeneratePredictableIPMaps params b m).2.length ≤ m := by
  have hb : (GeneratePredictableIPMaps params b m).1 =
      (List.range (issuedCount params.rangeStart params.rangeEnd b)).map
        (fun i => ("bind_address_" ++ toString i, params.rangeStart + i)) := by
    show (genIPEntries params.rangeEnd "bind_address_" 0 b
        params.rangeStart).1 = _
    rw [genIPEntries_eq]
    simp
  have hstop : (genIPEntries params.rangeEnd "bind_address_" 0 b
      params.rangeStart).2 =
      params.rangeStart + issuedCount params.rangeStart params.rangeEnd b := by
    rw [genIPEntries_eq]
  have hm : (GeneratePredictableIPMaps params b m).2 =
      (List.range (issuedCount
          (params.rangeStart + issuedCount params.rangeStart params.rangeEnd b)
          params.rangeEnd m)).map
        (fun j => ("mdns_address_" ++ toString j,
          params.rangeStart + issuedCount params.rangeStart params.rangeEnd b
            + j)) := by
    show (genIPEntries params.rangeEnd "mdns_address_" 0 m
        (genIPEntries params.rangeEnd "bind_address_" 0 b
          params.rangeStart).2).1 = _
    rw [hstop, genIPEntries_eq]
    simp
  refine ⟨hb, hm, ?_, ?_, ?_, ?_, ?_, ?_⟩
  · rw [hb]
    intro p hp
    simp only [List.mem_map, List.mem_range] at hp
    obtain ⟨i, hi, rfl⟩ := hp
    exact issuedCount_ne params.rangeStart params.rangeEnd b i hi
  · rw [hm]
    intro p hp
    simp only [List.mem_map, List.mem_range] at hp
    obtain ⟨j, hj, rfl⟩ := hp
    exact issuedCount_ne _ params.rangeEnd m j hj
  · rw [hb, hm]
    simp only [List.map_map]
    have heq : ((List.range (issuedCount params.rangeStart params.rangeEnd
        b)).map (Prod.snd ∘ (fun i => ("bind_address_" ++ toString i,
          params.rangeStart + i))) ++
        (List.range (issuedCount (params.rangeStart +
          issuedCount params.rangeStart params.rangeEnd b)
          params.rangeEnd m)).map (Prod.snd ∘ (fun j =>
          ("mdns_address_" ++ toString j, params.rangeStart +
            issuedCount params.rangeStart params.rangeEnd b + j)))) =
        (List.range (issuedCount params.rangeStart params.rangeEnd b +
          issuedCount (params.rangeStart +
            issuedCount params.rangeStart params.rangeEnd b)
            params.rangeEnd m)).map
          (fun i => params.rangeStart + i) := by
      rw [List.range_add, List.map_append, List.map_map]
      congr 1
      apply List.map_congr_left
      intro j hj
      simp only [Function.comp_apply]
      omega
    rw [heq]
    exact List.Nodup.map (add_right_injective params.rangeStart)
      (List.nodup_range _)
  · intro j hj
    have hpos : 0 < issuedCount (params.rangeStart +
        issuedCount params.rangeStart params.rangeEnd b)
        params.rangeEnd m :=
      Nat.lt_of_le_of_lt (Nat.zero_le j) hj
    have hne := issuedCount_pos_ne _ params.rangeEnd m hpos
    have hkb : issuedCount params.rangeStart params.rangeEnd b = b :=
      issuedCount_full params.rangeStart params.rangeEnd b hne
    rw [hm]
    simp only [List.mem_map, List.mem_range]
    exact ⟨j, hj, by rw [Prod.mk.injEq]; exact ⟨rfl, by omega⟩⟩
  · rw [hb]
    simp only [List.length_map, List.length_range]
    exact issuedCount_le _ _ b
  · rw [hm]
    simp only [List.length_map, List.length_range]
    exact issuedCount_le _ _ m

theorem claim10_generate_ip_maps_witness :
    ("mdns_address_" ++ toString 0, 12) ∈
      (GeneratePredictableIPMaps ⟨10, 13⟩ 2 3).2 ∧
    ((GeneratePredictableIPMaps ⟨10, 13⟩ 2 3).1.map Prod.snd ++
      (GeneratePredictableIPMaps ⟨10, 13⟩ 2 3).2.map Prod.snd).Nodup := by
  have h := claim10_generate_ip_maps_spec ⟨10, 13⟩ 2 3
  refine ⟨?_, h.2.2.2.2.1⟩
  have h6 := h.2.2.2.2.2.1 0 (by decide)
  simpa using h6

/-- Outcome of one `r.Update` call in the annotation write retry loop: it
succeeds, fails with a version conflict, or fails with any other error. -/
inductive UpdateRes where
  | ok : UpdateRes
  | conflict : UpdateRes
  | other : String → UpdateRes
deriving DecidableEq

/-- The overall result of `updatePodAnnotationsWithRetry`. -/
inductive RetryResult where
  | success : RetryResult
  | updateErr : String → RetryResult
  | refetchErr : RetryResult
  | exhausted : RetryResult
deriving DecidableEq

/-- Observable trace of the retry loop: how many `Update` calls were made,
which backoff sleeps (in milliseconds, in order) were performed, and the
outcome. -/
structure RetryTrace where
  attempts : Nat
  sleeps : List Nat
  result : RetryResult
deriving DecidableEq

/-- `const maxRetries = 5`. -/
def maxRetries : Nat := 5

/-- `const baseDelay = 100 * time.Millisecond`, in milliseconds. -/
def baseDelay : Nat := 100

/-- The loop of `updatePodAnnotationsWithRetry`. `env attempt` is the
outcome the external store gives the `attempt`-th `Update`; `refetchOk
attempt` is whether the re-fetch `Get` after that attempt's conflict
succeeds. On success or on a non-conflict `Update` error the loop returns at
once; on a conflict it re-fetches the pod (a failed re-fetch is returned at
once), sleeps `baseDelay * 2 ^ attempt` unless this was the last attempt,
and retries; `fuel` is the number of attempts left, initially
`maxRetries`. -/
def retryGo (env : Nat → UpdateRes) (refetchOk : Nat → Bool) :
    Nat → Nat → RetryTrace
  | _, 0 => ⟨0, [], RetryResult.exhausted⟩
  | attempt, fuel + 1 =>
      match env attempt with
      | UpdateRes.ok => ⟨1, [], RetryResult.success⟩
      | UpdateRes.other e => ⟨1, [], RetryResult.updateErr e⟩
      | UpdateRes.conflict =>
          if refetchOk attempt then
            let rest := retryGo env refetchOk (attempt + 1) fuel
            ⟨rest.attempts + 1,
             (if attempt < maxRetries - 1 then [baseDelay * 2 ^ attempt]
              else []) ++ rest.sleeps,
             rest.result⟩
          else ⟨1, [], RetryResult.refetchErr⟩

/-- `updatePodAnnotationsWithRetry`: run the loop from attempt 0 with
`maxRetries` attempts; exhausting them is the "failed to update pod
annotations after 5 attempts due to conflicts" error. -/
def updatePodAnnotationsWithRetry (env : Nat → UpdateRes)
    (refetchOk : Nat → Bool) : RetryTrace :=
  retryGo env refetchOk 0 maxRetries

/-- The backoff sleeps an all-conflict run performs, for comparison with the
loop's trace. -/
def conflictSleeps : Nat → Nat → List Nat
  | _, 0 => []
  | attempt, fuel + 1 =>
      (if attempt < maxRetries - 1 then [baseDelay * 2 ^ attempt] else []) ++
        conflictSleeps (attempt + 1) fuel

theorem retryGo_attempts_le (env : Nat → UpdateRes) (refetchOk : Nat → Bool) :
    ∀ fuel attempt, (retryGo env refetchOk attempt fuel).attempts ≤ fuel := by
  intro fuel
  induction fuel with
  | zero => intro attempt; simp [retryGo]
  | succ f ih =>
      intro attempt
      rw [retryGo]
      rcases henv : env attempt with _ | _ | e
      · simp
      · by_cases hr : refetchOk attempt
        · simp only [hr, if_true]
          have := ih (attempt + 1)
          omega
        · simp [hr]
      · simp

theorem retryGo_all_conflict (env : Nat → UpdateRes) (refetchOk : Nat → Bool) :
    ∀ fuel attempt,
      (∀ k, k < fuel → env (attempt + k) = UpdateRes.conflict ∧
        refetchOk (attempt + k) = true) →
      retryGo env refetchOk attempt fuel =
        ⟨fuel, conflictSleeps attempt fuel, RetryResult.exhausted⟩ := by
  intro fuel
  induction fuel with
  | zero => intro attempt _; simp [retryGo, conflictSleeps]
  | succ f ih =>
      intro attempt h
      have h0 := h 0 (Nat.succ_pos f)
      rw [Nat.add_zero] at h0
      have hshift : ∀ k, k < f → env (attempt + 1 + k) = UpdateRes.conflict ∧
          refetchOk (attempt + 1 + k) = true := by
        intro k hk
        have := h (k + 1) (Nat.succ_lt_succ hk)
        rwa [show attempt + (k + 1) = attempt + 1 + k from by omega] at this
      rw [retryGo]
      simp only [h0.1, h0.2, if_true]
      rw [ih (attempt + 1) hshift, conflictSleeps]

theorem retryGo_conflict_prefix (env : Nat → UpdateRes)
    (refetchOk : Nat → Bool) :
    ∀ j fuel attempt, j < fuel →
      (∀ k, k < j → env (attempt + k) = UpdateRes.conflict ∧
        refetchOk (attempt + k) = true) →
      ((env (attempt + j) = UpdateRes.ok →
        (retryGo env refetchOk attempt fuel).result = RetryResult.success ∧
        (retryGo env refetchOk attempt fuel).attempts = j + 1) ∧
      (∀ e, env (attempt + j) = UpdateRes.other e →
        (retryGo env refetchOk attempt fuel).result =
          RetryResult.updateErr e ∧
        (retryGo env refetchOk attempt fuel).attempts = j + 1)) := by
  intro j
  induction j with
  | zero =>
      intro fuel attempt hj h
      obtain ⟨f, rfl⟩ : ∃ f, fuel = f + 1 := ⟨fuel - 1, by omega⟩
      constructor
      · intro henv
        rw [Nat.add_zero] at henv
        rw [retryGo]
        simp [henv]
      · intro e henv
        rw [Nat.add_zero] at henv
        rw [retryGo]
        simp [henv]
  | succ j ih =>
      intro fuel attempt hj h
      obtain ⟨f, rfl⟩ : ∃ f, fuel = f + 1 := ⟨fuel - 1, by omega⟩
      have h0 := h 0 (Nat.succ_pos j)
      rw [Nat.add_zero] at h0
      have hshift : ∀ k, k < j → env (attempt + 1 + k) = UpdateRes.conflict ∧
          refetchOk (attempt + 1 + k) = true := by
        intro k hk
        have := h (k + 1) (Nat.succ_lt_succ hk)
        rwa [show attempt + (k + 1) = attempt + 1 + k from by omega] at this
      have hlt : j < f := by omega
      have IH := ih f (attempt + 1) hlt hshift
      rw [retryGo]
      simp only [h0.1, h0.2, if_true]
      constructor
      · intro henv
        rw [show attempt + (j + 1) = attempt + 1 + j from by omega] at henv
        obtain ⟨hres, hatt⟩ := IH.1 henv
        exact ⟨hres, by omega⟩
      · intro e henv
        rw [show attempt + (j + 1) = attempt + 1 + j from by omega] at henv
        obtain ⟨hres, hatt⟩ := IH.2 e henv
        exact ⟨hres, by omega⟩

/-- Claim C5: the annotation write retry loop performs at most 5 `Update`
attempts; when all 5 attempts hit a version conflict (and each re-fetch
succeeds) it returns the exhaustion error after exactly 5 attempts, having
slept 100ms, 200ms, 400ms and 800ms between successive attempts; and after
any run of conflicted attempts, the first attempt that fails with a
non-conflict error makes the loop return that error immediately (attempt
`j` is the last call), just as a first success returns immediately. -/
theorem claim5_retry_loop_spec (env : Nat → UpdateRes)
    (refetchOk : Nat → Bool) :
    (updatePodAnnotationsWithRetry env refetchOk).attempts ≤ 5 ∧
    ((∀ k, k < 5 → env k = UpdateRes.conflict ∧ refetchOk k = true) →
      updatePodAnnotationsWithRetry env refetchOk =
        ⟨5, [100, 200, 400, 800], RetryResult.exhausted⟩) ∧
    (∀ j, j < 5 →
      (∀ k, k < j → env k = UpdateRes.conflict ∧ refetchOk k = true) →
      (env j = UpdateRes.ok →
        (updatePodAnnotationsWithRetry env refetchOk).result =
          RetryResult.success ∧
        (updatePodAnnotationsWithRetry env refetchOk).attempts = j + 1) ∧
      (∀ e, env j = UpdateRes.other e →
        (updatePodAnnotationsWithRetry env refetchOk).result =
          RetryResult.updateErr e ∧
        (updatePodAnnotationsWithRetry env refetchOk).attempts = j + 1)) := by
  have hdef : updatePodAnnotationsWithRetry env refetchOk =
      retryGo env refetchOk 0 5 := rfl
  refine ⟨?_, ?_, ?_⟩
  · rw [hdef]
    exact retryGo_attempts_le env refetchOk 5 0
  · intro h
    rw [hdef, retryGo_all_conflict env refetchOk 5 0
      (fun k hk => by simpa using h k hk)]
    have : conflictSleeps 0 5 = [100, 200, 400, 800] := by decide
    rw [this]
  · intro j hj hpre
    have IH := retryGo_conflict_prefix env refetchOk j 5 0 hj
      (fun k hk => by simpa using hpre k hk)
    constructor
    · intro henv
      obtain ⟨hres, hatt⟩ := IH.1 (by simpa using henv)
      rw [hdef]
      exact ⟨hres, hatt⟩
    · intro e henv
      obtain ⟨hres, hatt⟩ := IH.2 e (by simpa using henv)
      rw [hdef]
      exact ⟨hres, hatt⟩

theorem claim5_retry_loop_witness :
    updatePodAnnotationsWithRetry (fun _ => UpdateRes.conflict)
        (fun _ => true) =
      ⟨5, [100, 200, 400, 800], RetryResult.exhausted⟩ ∧
    (updatePodAnnotationsWithRetry
        (fun k => if k = 0 then UpdateRes.conflict
          else UpdateRes.other "boom") (fun _ => true)).attempts = 2 := by
  constructor
  · exact (claim5_retry_loop_spec (fun _ => UpdateRes.conflict)
      (fun _ => true)).2.1 (fun k _ => ⟨rfl, rfl⟩)
  · exact (((claim5_retry_loop_spec
      (fun k => if k = 0 then UpdateRes.conflict else UpdateRes.other "boom")
      (fun _ => true)).2.2 1 (by omega)
      (fun k hk => by
        rw [show k = 0 from by omega]
        exact ⟨rfl, rfl⟩)).2 "boom" (by rfl)).2

/-- The deletion-relevant fields of a pod snapshot: the values the handler
reads from the predictable-ip and ipset-name pod metadata keys; `none`
models the missing key (the empty string in Go). -/
structure PodMeta where
  predictableIP : Option Nat
  ipsetName : Option String
deriving DecidableEq

/-- The controller's per-event return value: the `Requeue` flag of the
returned `ctrl.Result` and the returned error. -/
structure ReconcileOutcome where
  requeue : Bool
  err : Option String
deriving DecidableEq

/-- `handlePodDeletion`, the branch `Reconcile` takes for every managed pod
whose `DeletionTimestamp` is set: when both metadata values are present,
release the address from the named set — an error from `ReleaseIP` is only
logged, never returned, and leaves the store unchanged; when either value is
missing, no release happens at all. Always returns `(ctrl.Result{}, nil)`. -/
def handlePodDeletion (pod : PodMeta) (s : Store) :
    ReconcileOutcome × Store :=
  match pod.predictableIP, pod.ipsetName with
  | some ip, some n =>
      match ReleaseIP s n ip with
      | some s' => (⟨false, none⟩, s')
      | none => (⟨false, none⟩, s)
  | _, _ => (⟨false, none⟩, s)

/-- Claim C9: for every pod snapshot and store state, the deletion handler
returns success with no requeue — a release failure is discarded after
logging, never propagated — and a pod missing the predictable-ip or the
ipset-name metadata value triggers no release at all (the store is left
untouched). -/
theorem claim9_deletion_always_succeeds (pod : PodMeta) (s : Store) :
    (handlePodDeletion pod s).1.requeue = false ∧
    (handlePodDeletion pod s).1.err = none ∧
    ((pod.predictableIP = none ∨ pod.ipsetName = none) →
      (handlePodDeletion pod s).2 = s) := by
  obtain ⟨pip, pname⟩ := pod
  rcases pip with _ | ip
  · simp [handlePodDeletion]
  · rcases pname with _ | n
    · simp [handlePodDeletion]
    · rcases h : ReleaseIP s n ip with _ | s'
      · simp [handlePodDeletion, h]
      · simp [handlePodDeletion, h]

theorem claim9_deletion_witness :
    (handlePodDeletion ⟨none, some "p"⟩ [("p", [("a", 1)])]).1.err = none ∧
    (handlePodDeletion ⟨none, some "p"⟩ [("p", [("a", 1)])]).2 =
      [("p", [("a", 1)])] := by
  have h := claim9_deletion_always_succeeds ⟨none, some "p"⟩
    [("p", [("a", 1)])]
  exact ⟨h.2.1, h.2.2 (Or.inl rfl)⟩

end Designate
